import Mathlib

/-!
# Verification of the VisuaLIME explanation pipeline specification

This file gives a shallow embedding of the perturbation-sampling,
distance/weighting and surrogate-fitting pipeline of VisuaLIME, and proves
the specified properties about it.  The repository's checkout contains only
the documentation guide `docs/user_guide/image_segmentation.py`; the core
module (`visualime.lime`: `generate_samples`, `compute_distances`, `kernel`,
the perturbation engine, the weighted fit and the explanation assembler) is
absent, so those operations are modelled from the specification, faithful to
its words, as marked in each doc comment.
-/

namespace Visualime

/-- Modelled from the spec: the error taxonomy of §7 (`InvalidArgument`,
`PredictorError`, `SingularFitError`). -/
inductive VisualimeError where
  | invalidArgument
  | predictorError
  | singularFitError
deriving DecidableEq, Repr

/-! ## Sample Generator (§4.1) -/

/-- Modelled from the spec: one step of the deterministic pseudo-random
number generator that an explicit seed fully determines (a 64-bit linear
congruential generator; the spec requires bit-reproducibility given a seed,
not a particular generator). -/
def lcg (s : ℕ) : ℕ :=
  (6364136223846793005 * s + 1442695040888963407) % 2 ^ 64

/-- Modelled from the spec: the value of the PRNG stream after `k + 1`
steps from the seed, scaled into the unit interval `[0, 1)`. -/
def randUnit (seed k : ℕ) : ℚ :=
  ((lcg^[k + 1] seed : ℕ) : ℚ) / 2 ^ 64

/-- Modelled from the spec: a single Bernoulli(`p`) draw, realised by
thresholding the `k`-th PRNG value of the stream determined by `seed`
against the success probability `p`. -/
def bernoulliDraw (p : ℚ) (seed k : ℕ) : Bool :=
  decide (randUnit seed k < p)

/-- Modelled from the spec: the `M×N` boolean Samples matrix of §4.1.
Row 0 is forced to all-true (the reference sample); every other entry is a
Bernoulli(`p`) draw from the seed-determined stream, each entry consuming
its own PRNG value. -/
def samplesMatrix (N M : ℕ) (p : ℚ) (seed : ℕ) : List (List Bool) :=
  (List.range M).map fun i =>
    (List.range N).map fun j =>
      if i = 0 then true else bernoulliDraw p seed (i * N + j)

/-- Modelled from the spec: `generate_samples(num_segments, num_samples, p,
seed)`.  Fails with `InvalidArgument` when `N < 1` or `M < 1` or `p` lies
outside `[0, 1]`, before any sampling work; otherwise returns the Samples
matrix. -/
def generate_samples (N M : ℕ) (p : ℚ) (seed : ℕ) :
    Except VisualimeError (List (List Bool)) :=
  if N < 1 ∨ M < 1 ∨ p < 0 ∨ 1 < p then .error .invalidArgument
  else .ok (samplesMatrix N M p seed)

/-! ## Distance & Kernel Module (§4.4): the kernel -/

/-- Modelled from the spec: `kernel(distance, kernel_width) -> Weight =
exp(-distance² / kernel_width²)`. -/
noncomputable def kernel (distance kernel_width : ℝ) : ℝ :=
  Real.exp (-distance ^ 2 / kernel_width ^ 2)

/-- Modelled from the spec: the checked entry point of the kernel; a
degenerate (zero) `kernel_width` fails with `InvalidArgument`. -/
noncomputable def kernelChecked (distance kernel_width : ℝ) :
    Except VisualimeError ℝ :=
  if kernel_width = 0 then .error .invalidArgument
  else .ok (kernel distance kernel_width)

/-- C1: for `N ≥ 1`, `M ≥ 1` and `p ∈ [0,1]`, `generate_samples` succeeds
and returns an `M×N` boolean matrix whose row 0 is all-true, and in which
every other entry is its own Bernoulli(`p`) draw from the seed-determined
PRNG stream. -/
theorem generate_samples_spec (N M : ℕ) (p : ℚ) (seed i j : ℕ)
    (hN : 1 ≤ N) (hM : 1 ≤ M) (hp0 : 0 ≤ p) (hp1 : p ≤ 1)
    (hi : i < M) (hj : j < N) :
    generate_samples N M p seed = .ok (samplesMatrix N M p seed) ∧
    (samplesMatrix N M p seed).length = M ∧
    ((samplesMatrix N M p seed).getD i []).length = N ∧
    ((samplesMatrix N M p seed).getD 0 []).getD j false = true ∧
    (1 ≤ i → ((samplesMatrix N M p seed).getD i []).getD j false
      = bernoulliDraw p seed (i * N + j)) := by
  have hrow : ∀ k, k < M →
      (samplesMatrix N M p seed).getD k []
        = (List.range N).map fun t =>
            if k = 0 then true else bernoulliDraw p seed (k * N + t) := by
    intro k hk
    simp [samplesMatrix, List.getD_eq_getElem?_getD, List.getElem?_map,
      List.getElem?_range, hk]
  have hentry : ∀ k, k < M →
      ((samplesMatrix N M p seed).getD k []).getD j false
        = if k = 0 then true else bernoulliDraw p seed (k * N + j) := by
    intro k hk
    rw [hrow k hk]
    simp [List.getD_eq_getElem?_getD, List.getElem?_map, List.getElem?_range, hj]
  refine ⟨?_, ?_, ?_, ?_, ?_⟩
  · rw [generate_samples, if_neg]
    push_neg
    exact ⟨hN, hM, hp0, hp1⟩
  · simp [samplesMatrix]
  · rw [hrow i hi]; simp
  · rw [hentry 0 hM]; simp
  · intro hi1
    rw [hentry i hi]
    simp [Nat.pos_iff_ne_zero.mp hi1]

/-- Witness for C1 at `N = 2`, `M = 3`, `p = 1`, `seed = 0`,
entry `(1, 1)`. -/
theorem generate_samples_spec_witness :
    (1 ≤ 2 ∧ 1 ≤ 3 ∧ (0 : ℚ) ≤ 1 ∧ (1 : ℚ) ≤ 1 ∧ 1 < 3 ∧ 1 < 2) ∧
    (generate_samples 2 3 1 0 = .ok (samplesMatrix 2 3 1 0) ∧
      (samplesMatrix 2 3 1 0).length = 3 ∧
      ((samplesMatrix 2 3 1 0).getD 1 []).length = 2 ∧
      ((samplesMatrix 2 3 1 0).getD 0 []).getD 1 false = true ∧
      (1 ≤ 1 → ((samplesMatrix 2 3 1 0).getD 1 []).getD 1 false
        = bernoulliDraw 1 0 (1 * 2 + 1))) :=
  ⟨by decide,
    generate_samples_spec 2 3 1 0 1 1 (by decide) (by decide)
      (by decide) (by decide) (by decide) (by decide)⟩

/-- C7: `generate_samples` fails with `InvalidArgument` exactly when
`N < 1`, `M < 1` or `p` lies outside `[0,1]` (the guard precedes any
construction of the Samples matrix), and the checked kernel fails with
`InvalidArgument` at zero width. -/
theorem validation_fail_fast (N M : ℕ) (p : ℚ) (seed : ℕ) (d : ℝ) :
    (generate_samples N M p seed = .error .invalidArgument ↔
      (N < 1 ∨ M < 1 ∨ p < 0 ∨ 1 < p)) ∧
    kernelChecked d 0 = .error .invalidArgument := by
  constructor
  · by_cases h : N < 1 ∨ M < 1 ∨ p < 0 ∨ 1 < p
    · rw [generate_samples, if_pos h]
      exact iff_of_true rfl h
    · rw [generate_samples, if_neg h]
      exact iff_of_false (by simp) h
  · simp [kernelChecked]

/-- C3: `kernel(d, w) = exp(-d²/w²)`; for fixed width `w > 0` it is
strictly decreasing in the distance, equals `1` at distance `0`, and the
resulting weight lies in `(0, 1]`, attaining `1` only at distance `0`. -/
theorem kernel_spec (d d₁ d₂ w : ℝ) (hw : 0 < w) (hd : 0 ≤ d)
    (hd₁ : 0 ≤ d₁) (h₁₂ : d₁ < d₂) :
    kernel d w = Real.exp (-d ^ 2 / w ^ 2) ∧
    kernel d₂ w < kernel d₁ w ∧
    kernel 0 w = 1 ∧
    (0 < kernel d w ∧ kernel d w ≤ 1) ∧
    (kernel d w = 1 ↔ d = 0) := by
  have hw2 : (0 : ℝ) < w ^ 2 := by positivity
  refine ⟨rfl, ?_, ?_, ⟨Real.exp_pos _, ?_⟩, ?_⟩
  · apply Real.exp_lt_exp.mpr
    rw [neg_div, neg_div, neg_lt_neg_iff]
    have h2 : d₁ ^ 2 < d₂ ^ 2 := by nlinarith
    exact (div_lt_div_iff hw2 hw2).mpr (by nlinarith)
  · simp [kernel]
  · apply Real.exp_le_one_iff.mpr
    rw [neg_div, neg_nonpos]
    positivity
  · rw [kernel, Real.exp_eq_one_iff, neg_div, neg_eq_zero,
      div_eq_zero_iff]
    constructor
    · rintro (h | h)
      · exact pow_eq_zero_iff (by norm_num) |>.mp h
      · exact absurd h hw2.ne'
    · intro h
      exact Or.inl (by simp [h])

/-- Witness for C3 at `d = 1`, `d₁ = 0`, `d₂ = 1`, `w = 2`. -/
theorem kernel_spec_witness :
    ((0 : ℝ) < 2 ∧ (0 : ℝ) ≤ 1 ∧ (0 : ℝ) ≤ 0 ∧ (0 : ℝ) < 1) ∧
    (kernel 1 2 = Real.exp (-1 ^ 2 / 2 ^ 2) ∧
      kernel 1 2 < kernel 0 2 ∧
      kernel 0 2 = 1 ∧
      (0 < kernel 1 2 ∧ kernel 1 2 ≤ 1) ∧
      (kernel 1 2 = 1 ↔ (1 : ℝ) = 0)) :=
  ⟨⟨zero_lt_two, zero_le_one, le_refl 0, zero_lt_one⟩,
    kernel_spec 1 0 1 2 zero_lt_two zero_le_one (le_refl 0) zero_lt_one⟩

/-! ## Distance & Kernel Module (§4.4): distances -/

/-- Number of absent-segment bits of a sample, i.e. the positions where it
differs from the all-true reference sample. -/
def countFalse (s : List Bool) : ℕ :=
  s.countP (fun b => !b)

/-- Modelled from the spec: the supported distance metrics of §4.4 —
Hamming/Euclidean on presence bits, and size-weighted cosine distance
(each segment's contribution weighted by its pixel-count fraction,
recorded in `sizes`). -/
inductive Metric where
  | hamming
  | euclidean
  | sizeWeightedCosine (sizes : List ℝ)

/-- Sum of squared segment weights (the squared norm of the weighted
reference vector). -/
def sqNorm (sizes : List ℝ) : ℝ :=
  (sizes.map (· ^ 2)).sum

/-- Sum of squared segment weights restricted to the present segments of a
sample (the squared norm of the weighted sample vector, and also its inner
product with the weighted reference vector). -/
def presentSqNorm : List ℝ → List Bool → ℝ
  | _, [] => 0
  | [], _ => 0
  | wgt :: rest, b :: s => (if b then wgt ^ 2 else 0) + presentSqNorm rest s

/-- Modelled from the spec: the distance of one sample to the all-true
reference sample under each supported metric.  For size-weighted cosine the
sample/reference vectors carry each segment's size as weight, giving
`1 - ⟨x, r⟩ / (‖x‖·‖r‖)`. -/
noncomputable def sampleDistance (metric : Metric) (s : List Bool) : ℝ :=
  match metric with
  | .hamming => (countFalse s : ℝ)
  | .euclidean => Real.sqrt (countFalse s)
  | .sizeWeightedCosine sizes =>
      1 - presentSqNorm sizes s /
        (Real.sqrt (presentSqNorm sizes s) * Real.sqrt (sqNorm sizes))

/-- Modelled from the spec: `compute_distances(samples, metric)`, one
distance per sample row. -/
noncomputable def compute_distances (samples : List (List Bool)) (metric : Metric) :
    List ℝ :=
  samples.map (sampleDistance metric)

/-- A metric is non-degenerate for segment count `N` when its size weights
(if any) are positive and one per segment. -/
def Metric.NonDegenerate (N : ℕ) : Metric → Prop
  | .hamming => True
  | .euclidean => True
  | .sizeWeightedCosine sizes => sizes.length = N ∧ ∀ x ∈ sizes, 0 < x

theorem countFalse_eq_zero_iff (s : List Bool) :
    countFalse s = 0 ↔ s = List.replicate s.length true := by
  rw [countFalse, List.countP_eq_zero]
  constructor
  · intro h
    rw [List.eq_replicate_iff]
    exact ⟨rfl, fun b hb => by simpa using h b hb⟩
  · intro h b hb
    rw [h] at hb
    simp [List.eq_of_mem_replicate hb]

theorem presentSqNorm_nonneg (sizes : List ℝ) (s : List Bool) :
    0 ≤ presentSqNorm sizes s := by
  induction sizes generalizing s with
  | nil => cases s <;> simp [presentSqNorm]
  | cons w rest ih =>
    cases s with
    | nil => simp [presentSqNorm]
    | cons b t =>
      have := ih t
      by_cases hb : b <;> simp [presentSqNorm, hb] <;> positivity

theorem sqNorm_nonneg (sizes : List ℝ) : 0 ≤ sqNorm sizes := by
  induction sizes with
  | nil => simp [sqNorm]
  | cons w rest ih => simp only [sqNorm, List.map_cons, List.sum_cons]; positivity

theorem presentSqNorm_le_sqNorm (sizes : List ℝ) (s : List Bool) :
    presentSqNorm sizes s ≤ sqNorm sizes := by
  induction sizes generalizing s with
  | nil => cases s <;> simp [presentSqNorm, sqNorm]
  | cons w rest ih =>
    cases s with
    | nil =>
      simp only [presentSqNorm, sqNorm, List.map_cons, List.sum_cons]
      have := sqNorm_nonneg rest
      rw [sqNorm] at this
      positivity
    | cons b t =>
      have h1 := ih t
      simp only [presentSqNorm, sqNorm, List.map_cons, List.sum_cons] at h1 ⊢
      have h2 : (if b then w ^ 2 else 0) ≤ w ^ 2 := by
        by_cases hb : b <;> simp [hb] <;> positivity
      linarith

theorem presentSqNorm_all_true (sizes : List ℝ) :
    presentSqNorm sizes (List.replicate sizes.length true) = sqNorm sizes := by
  induction sizes with
  | nil => simp [presentSqNorm, sqNorm]
  | cons w rest ih =>
    have h := ih
    rw [sqNorm] at h
    simp [List.replicate_succ, presentSqNorm, sqNorm, h]

theorem presentSqNorm_lt_sqNorm (sizes : List ℝ) (s : List Bool)
    (hlen : sizes.length = s.length) (hpos : ∀ x ∈ sizes, 0 < x)
    (hne : countFalse s ≠ 0) :
    presentSqNorm sizes s < sqNorm sizes := by
  induction sizes generalizing s with
  | nil =>
    cases s with
    | nil => simp [countFalse] at hne
    | cons b t => simp at hlen
  | cons w rest ih =>
    cases s with
    | nil => simp at hlen
    | cons b t =>
      have hw : 0 < w := hpos w (by simp)
      have hrest : ∀ x ∈ rest, 0 < x := fun x hx => hpos x (by simp [hx])
      have hlen' : rest.length = t.length := by simpa using hlen
      simp only [presentSqNorm, sqNorm, List.map_cons, List.sum_cons]
      cases b with
      | false =>
        have h1 := presentSqNorm_le_sqNorm rest t
        rw [sqNorm] at h1
        have : (0 : ℝ) < w ^ 2 := by positivity
        simpa using by linarith
      | true =>
        have hne' : countFalse t ≠ 0 := by simpa [countFalse] using hne
        have h1 := ih t hlen' hrest hne'
        rw [sqNorm] at h1
        simpa using by linarith

theorem sqNorm_pos (sizes : List ℝ) (hne : sizes ≠ [])
    (hpos : ∀ x ∈ sizes, 0 < x) : 0 < sqNorm sizes := by
  cases sizes with
  | nil => exact absurd rfl hne
  | cons w rest =>
    have hw : 0 < w := hpos w (by simp)
    have h1 := sqNorm_nonneg rest
    simp only [sqNorm, List.map_cons, List.sum_cons]
    rw [sqNorm] at h1
    positivity

/-- Per-sample distance facts: non-negativity, and vanishing exactly at the
all-true reference sample, for every non-degenerate metric. -/
theorem sampleDistance_spec (metric : Metric) (s : List Bool) (N : ℕ)
    (hN : 1 ≤ N) (hs : s.length = N) (hm : metric.NonDegenerate N) :
    0 ≤ sampleDistance metric s ∧
    (sampleDistance metric s = 0 ↔ s = List.replicate N true) := by
  rcases metric with _ | _ | sizes
  · refine ⟨?_, ?_⟩
    · rw [sampleDistance]
      positivity
    · rw [sampleDistance, Nat.cast_eq_zero, countFalse_eq_zero_iff, hs]
  · refine ⟨Real.sqrt_nonneg _, ?_⟩
    rw [sampleDistance, Real.sqrt_eq_zero', Nat.cast_nonpos,
      countFalse_eq_zero_iff, hs]
  · obtain ⟨hlen, hpos⟩ := hm
    have hne : sizes ≠ [] := by
      intro h
      subst h
      simp at hlen
      omega
    have hS : 0 < sqNorm sizes := sqNorm_pos sizes hne hpos
    have ha0 : 0 ≤ presentSqNorm sizes s := presentSqNorm_nonneg sizes s
    have haS : presentSqNorm sizes s ≤ sqNorm sizes := presentSqNorm_le_sqNorm sizes s
    have key : presentSqNorm sizes s <
        sqNorm sizes ∨ presentSqNorm sizes s = sqNorm sizes := lt_or_eq_of_le haS
    have ratio_lt : presentSqNorm sizes s < sqNorm sizes →
        presentSqNorm sizes s /
          (Real.sqrt (presentSqNorm sizes s) * Real.sqrt (sqNorm sizes)) < 1 := by
      intro hlt
      rcases eq_or_lt_of_le ha0 with h0 | h0
      · rw [← h0]
        simp
      · have hsq : Real.sqrt (presentSqNorm sizes s) ≠ 0 :=
          (Real.sqrt_pos.mpr h0).ne'
        have heq : presentSqNorm sizes s /
            (Real.sqrt (presentSqNorm sizes s) * Real.sqrt (sqNorm sizes))
            = Real.sqrt (presentSqNorm sizes s) / Real.sqrt (sqNorm sizes) := by
          nth_rewrite 1 [← Real.mul_self_sqrt ha0]
          rw [mul_div_mul_left _ _ hsq]
        rw [heq, div_lt_one (Real.sqrt_pos.mpr hS)]
        exact Real.sqrt_lt_sqrt ha0 hlt
    have ratio_eq : presentSqNorm sizes s = sqNorm sizes →
        presentSqNorm sizes s /
          (Real.sqrt (presentSqNorm sizes s) * Real.sqrt (sqNorm sizes)) = 1 := by
      intro heq
      rw [heq, Real.mul_self_sqrt hS.le, div_self hS.ne']
    constructor
    · rw [sampleDistance, sub_nonneg]
      rcases key with hlt | heq
      · exact (ratio_lt hlt).le
      · exact (ratio_eq heq).le
    · rw [sampleDistance]
      constructor
      · intro h1
        by_contra hne'
        have hcf : countFalse s ≠ 0 := by
          intro hcf
          apply hne'
          rw [← hs]
          exact (countFalse_eq_zero_iff s).mp hcf
        have hlt := presentSqNorm_lt_sqNorm sizes s (by omega) hpos hcf
        have := ratio_lt hlt
        linarith
      · intro h
        have heq : presentSqNorm sizes s = sqNorm sizes := by
          rw [h, ← hlen, presentSqNorm_all_true]
        rw [heq, Real.mul_self_sqrt hS.le, div_self hS.ne', sub_self]

/-- C4: for every Samples matrix and supported non-degenerate metric,
`compute_distances` returns a non-negative value for every sample, exactly
`0` for the all-true reference sample, and a strictly positive value for
any sample differing from the reference in at least one bit. -/
theorem compute_distances_spec (samples : List (List Bool)) (metric : Metric)
    (N i : ℕ) (hN : 1 ≤ N) (hlen : ∀ s ∈ samples, s.length = N)
    (hm : metric.NonDegenerate N) (hi : i < samples.length) :
    0 ≤ (compute_distances samples metric).getD i 0 ∧
    ((compute_distances samples metric).getD i 0 = 0 ↔
      samples.getD i [] = List.replicate N true) := by
  have hmap : (compute_distances samples metric).getD i 0
      = sampleDistance metric (samples.getD i []) := by
    rw [compute_distances, List.getD_eq_getElem _ _ (by simpa using hi),
      List.getElem_map, List.getD_eq_getElem _ _ hi]
  have hmem : samples.getD i [] ∈ samples := by
    rw [List.getD_eq_getElem _ _ hi]
    exact List.getElem_mem hi
  rw [hmap]
  exact sampleDistance_spec metric (samples.getD i []) N hN (hlen _ hmem) hm

/-- Witness for C4: Hamming metric on a 2×2 Samples matrix, row 1 of which
differs from the reference in one bit. -/
theorem compute_distances_spec_witness :
    0 ≤ (compute_distances [[true, true], [true, false]] Metric.hamming).getD 1 0 ∧
    ((compute_distances [[true, true], [true, false]] Metric.hamming).getD 1 0 = 0 ↔
      ([[true, true], [true, false]] : List (List Bool)).getD 1 []
        = List.replicate 2 true) :=
  compute_distances_spec [[true, true], [true, false]] Metric.hamming 2 1
    (by decide) (by decide) trivial (by decide)

/-! ## Perturbation Engine (§4.2) -/

/-- An 8-bit RGB(A) pixel: three or four channel values in `[0, 256)`. -/
abbrev Pixel := List (Fin 256)

/-- Modelled from the spec: `apply(sample, segmentation_map, image,
background_policy) -> PerturbedImage`.  For every pixel, if the presence
bit of its segment label is true the original pixel is copied; otherwise
the background policy's value for that position is written (a fixed fill
being a constant policy, a caller-supplied "fudged" image an arbitrary
one).  The inputs are only read; the perturbed image is a new value. -/
def apply (sample : List Bool) (segmentation_map : List (List ℕ))
    (image : List (List Pixel)) (background : ℕ → ℕ → Pixel) :
    List (List Pixel) :=
  (List.range image.length).map fun y =>
    (List.range ((image.getD y []).length)).map fun x =>
      if sample.getD ((segmentation_map.getD y []).getD x 0) false then
        (image.getD y []).getD x []
      else background y x

/-- C5: the perturbed image has the shape of the original, each pixel
whose segment's presence bit is true equals the original pixel, and each
pixel whose segment's presence bit is false equals the background policy's
value.  (The embedding is purely functional, so `apply` cannot and does
not mutate the input image or segmentation map.) -/
theorem apply_spec (sample : List Bool) (segmentation_map : List (List ℕ))
    (image : List (List Pixel)) (background : ℕ → ℕ → Pixel) (y x : ℕ)
    (hy : y < image.length) (hx : x < (image.getD y []).length) :
    (apply sample segmentation_map image background).length = image.length ∧
    ((apply sample segmentation_map image background).getD y []).length
      = (image.getD y []).length ∧
    ((apply sample segmentation_map image background).getD y []).getD x []
      = if sample.getD ((segmentation_map.getD y []).getD x 0) false then
          (image.getD y []).getD x []
        else background y x := by
  have hrow : (apply sample segmentation_map image background).getD y []
      = (List.range ((image.getD y []).length)).map fun t =>
          if sample.getD ((segmentation_map.getD y []).getD t 0) false then
            (image.getD y []).getD t []
          else background y t := by
    simp [apply, List.getD_eq_getElem?_getD, List.getElem?_map, List.getElem?_range, hy]
  refine ⟨by simp [apply], ?_, ?_⟩
  · rw [hrow]
    simp
  · rw [hrow]
    rw [List.getD_eq_getElem _ _ (by simpa using hx)]
    simp

/-- Witness for C5 on a 1×2 image with two segments, one present and one
absent. -/
theorem apply_spec_witness :
    (apply [true, false] [[0, 1]] [[[(7 : Fin 256)], [(9 : Fin 256)]]]
        (fun _ _ => [(0 : Fin 256)])).length = [[[(7 : Fin 256)], [(9 : Fin 256)]]].length ∧
    ((apply [true, false] [[0, 1]] [[[(7 : Fin 256)], [(9 : Fin 256)]]]
        (fun _ _ => [(0 : Fin 256)])).getD 0 []).length
      = (([[[(7 : Fin 256)], [(9 : Fin 256)]]] : List (List Pixel)).getD 0 []).length ∧
    ((apply [true, false] [[0, 1]] [[[(7 : Fin 256)], [(9 : Fin 256)]]]
        (fun _ _ => [(0 : Fin 256)])).getD 0 []).getD 1 []
      = if ([true, false] : List Bool).getD
            ((([[0, 1]] : List (List ℕ)).getD 0 []).getD 1 0) false then
          (([[[(7 : Fin 256)], [(9 : Fin 256)]]] : List (List Pixel)).getD 0 []).getD 1 []
        else (fun _ _ => [(0 : Fin 256)] : ℕ → ℕ → Pixel) 0 1 :=
  apply_spec [true, false] [[0, 1]] [[[(7 : Fin 256)], [(9 : Fin 256)]]]
    (fun _ _ => [(0 : Fin 256)]) 0 1 (by decide) (by decide)

/-! ## Surrogate Fitter (§4.5) -/

open scoped Matrix

open Classical in
/-- Modelled from the spec: `fit(samples, predictions[:, class_idx],
weights, regularization) -> SurrogateModel`.  Solves the weighted
least-squares problem through the normal equations
`(XᵀWX + λ·I)·β = XᵀWy` (the intercept is absorbed as an all-ones column
of the design matrix `X`, and `λ` is the L2/ridge strength); fails with
`SingularFitError` when the system matrix is singular, which with positive
weights and no regularization is exactly rank-deficiency of the weighted
design matrix. -/
noncomputable def fit {m n : ℕ} (X : Matrix (Fin m) (Fin n) ℝ)
    (w y : Fin m → ℝ) (lam : ℝ) : Except VisualimeError (Fin n → ℝ) :=
  if IsUnit (Xᵀ * Matrix.diagonal w * X
      + lam • (1 : Matrix (Fin n) (Fin n) ℝ)).det then
    .ok ((Xᵀ * Matrix.diagonal w * X + lam • (1 : Matrix (Fin n) (Fin n) ℝ))⁻¹
      *ᵥ (Xᵀ *ᵥ fun i => w i * y i))
  else .error .singularFitError

open Classical in
/-- Modelled from the spec: ordinary (unweighted) least squares on the same
data, the reference point of the degenerate scenario of §8 (all weights
equal, `kernel_width → ∞`). -/
noncomputable def olsFit {m n : ℕ} (X : Matrix (Fin m) (Fin n) ℝ)
    (y : Fin m → ℝ) : Except VisualimeError (Fin n → ℝ) :=
  if IsUnit (Xᵀ * X).det then .ok ((Xᵀ * X)⁻¹ *ᵥ (Xᵀ *ᵥ y))
  else .error .singularFitError

theorem weighted_quadratic_form {m n : ℕ} (X : Matrix (Fin m) (Fin n) ℝ)
    (w : Fin m → ℝ) (lam : ℝ) (v : Fin n → ℝ) :
    v ⬝ᵥ ((Xᵀ * Matrix.diagonal w * X
        + lam • (1 : Matrix (Fin n) (Fin n) ℝ)) *ᵥ v)
      = (∑ i, w i * (X *ᵥ v) i ^ 2) + lam * ∑ j, v j ^ 2 := by
  rw [Matrix.add_mulVec, Matrix.dotProduct_add]
  congr 1
  · rw [← Matrix.mulVec_mulVec, ← Matrix.mulVec_mulVec, Matrix.dotProduct_mulVec,
      Matrix.vecMul_transpose]
    simp only [Matrix.dotProduct, Matrix.mulVec_diagonal]
    exact Finset.sum_congr rfl fun i _ => by ring
  · rw [Matrix.smul_mulVec_assoc, Matrix.one_mulVec, Matrix.dotProduct_smul]
    simp only [smul_eq_mul, Matrix.dotProduct]
    congr 1
    exact Finset.sum_congr rfl fun j _ => by ring

theorem rank_eq_width_iff_mulVec_injective {m n : ℕ}
    (X : Matrix (Fin m) (Fin n) ℝ) :
    X.rank = n ↔ ∀ v : Fin n → ℝ, X *ᵥ v = 0 → v = 0 := by
  have hrankdef : X.rank
      = Module.finrank ℝ (LinearMap.range X.mulVecLin) := rfl
  have hrn := LinearMap.finrank_range_add_finrank_ker X.mulVecLin
  rw [Module.finrank_fin_fun] at hrn
  constructor
  · intro hr v hv
    have hker0 : Module.finrank ℝ (LinearMap.ker X.mulVecLin) = 0 := by
      rw [hrankdef] at hr
      omega
    have hbot : LinearMap.ker X.mulVecLin = ⊥ := Submodule.finrank_eq_zero.mp hker0
    have hv' : v ∈ LinearMap.ker X.mulVecLin := by
      rw [LinearMap.mem_ker, Matrix.mulVecLin_apply]
      exact hv
    rw [hbot] at hv'
    simpa using hv'
  · intro hinj
    have hbot : LinearMap.ker X.mulVecLin = ⊥ := by
      rw [LinearMap.ker_eq_bot']
      intro v hv
      exact hinj v (by rwa [Matrix.mulVecLin_apply] at hv)
    rw [hbot, finrank_bot] at hrn
    rw [hrankdef]
    omega

theorem fit_matrix_isUnit_iff {m n : ℕ} (X : Matrix (Fin m) (Fin n) ℝ)
    (w : Fin m → ℝ) (lam : ℝ) (hw : ∀ i, 0 < w i) (hlam : 0 ≤ lam) :
    IsUnit (Xᵀ * Matrix.diagonal w * X
        + lam • (1 : Matrix (Fin n) (Fin n) ℝ)).det
      ↔ (0 < lam ∨ X.rank = n) := by
  rw [isUnit_iff_ne_zero]
  constructor
  · intro hdet
    by_contra hcon
    push_neg at hcon
    obtain ⟨hlam0, hrank⟩ := hcon
    have hlam' : lam = 0 := le_antisymm hlam0 hlam
    obtain ⟨v, hXv, hvne⟩ : ∃ v : Fin n → ℝ, X *ᵥ v = 0 ∧ v ≠ 0 := by
      by_contra hno
      push_neg at hno
      exact hrank ((rank_eq_width_iff_mulVec_injective X).mpr fun v hv =>
        by_contra fun hne => hne (hno v hv))
    apply hdet
    apply Matrix.exists_mulVec_eq_zero_iff.mp
    refine ⟨v, hvne, ?_⟩
    rw [hlam', zero_smul, add_zero, ← Matrix.mulVec_mulVec, hXv, Matrix.mulVec_zero]
  · intro hcase hdet0
    obtain ⟨v, hvne, hAv⟩ := Matrix.exists_mulVec_eq_zero_iff.mpr hdet0
    have hqf := weighted_quadratic_form X w lam v
    rw [hAv, Matrix.dotProduct_zero] at hqf
    have h1 : 0 ≤ ∑ i, w i * (X *ᵥ v) i ^ 2 :=
      Finset.sum_nonneg fun i _ => mul_nonneg (hw i).le (sq_nonneg _)
    have h2 : 0 ≤ lam * ∑ j, v j ^ 2 :=
      mul_nonneg hlam (Finset.sum_nonneg fun j _ => sq_nonneg _)
    have hsum1 : ∑ i, w i * (X *ᵥ v) i ^ 2 = 0 := by linarith
    have hsum2 : lam * ∑ j, v j ^ 2 = 0 := by linarith
    rcases hcase with hlampos | hrank
    · have hv2 : ∑ j, v j ^ 2 = 0 := by
        rcases mul_eq_zero.mp hsum2 with h | h
        · exact absurd h hlampos.ne'
        · exact h
      refine hvne (funext fun j => ?_)
      have := (Finset.sum_eq_zero_iff_of_nonneg
        (fun j _ => sq_nonneg (v j))).mp hv2 j (Finset.mem_univ j)
      exact pow_eq_zero_iff two_ne_zero |>.mp this
    · have hXv : X *ᵥ v = 0 := by
        funext i
        have := (Finset.sum_eq_zero_iff_of_nonneg
          (fun i _ => mul_nonneg (hw i).le (sq_nonneg ((X *ᵥ v) i)))).mp
          hsum1 i (Finset.mem_univ i)
        rcases mul_eq_zero.mp this with h | h
        · exact absurd h (hw i).ne'
        · simpa using pow_eq_zero_iff two_ne_zero |>.mp h
      exact hvne ((rank_eq_width_iff_mulVec_injective X).mp hrank v hXv)

/-- C6: with positive weights and regularization strength `λ ≥ 0`, `fit`
succeeds exactly when `λ > 0` (ridge configured) or the design matrix has
full column rank, and fails with the typed `SingularFitError` (never a
numeric non-result) exactly when no regularization is configured and the
design matrix is rank-deficient. -/
theorem fit_spec {m n : ℕ} (X : Matrix (Fin m) (Fin n) ℝ) (w y : Fin m → ℝ)
    (lam : ℝ) (hw : ∀ i, 0 < w i) (hlam : 0 ≤ lam) :
    ((∃ c, fit X w y lam = .ok c) ↔ (0 < lam ∨ X.rank = n)) ∧
    (fit X w y lam = .error .singularFitError ↔ (lam = 0 ∧ X.rank < n)) := by
  have hiff := fit_matrix_isUnit_iff X w lam hw hlam
  have hrle := Matrix.rank_le_width X
  by_cases hA : IsUnit (Xᵀ * Matrix.diagonal w * X
      + lam • (1 : Matrix (Fin n) (Fin n) ℝ)).det
  · rw [fit, if_pos hA]
    constructor
    · exact iff_of_true ⟨_, rfl⟩ (hiff.mp hA)
    · refine iff_of_false (by simp) ?_
      rintro ⟨hl0, hrlt⟩
      rcases hiff.mp hA with h | h
      · exact absurd hl0 h.ne'
      · omega
  · rw [fit, if_neg hA]
    have hnot : ¬(0 < lam ∨ X.rank = n) := fun h => hA (hiff.mpr h)
    constructor
    · refine iff_of_false ?_ hnot
      rintro ⟨c, hc⟩
      exact Except.noConfusion hc
    · refine iff_of_true rfl ⟨?_, ?_⟩
      · rcases eq_or_lt_of_le hlam with h | h
        · exact h.symm
        · exact absurd (Or.inl h) hnot
      · rcases lt_or_eq_of_le hrle with h | h
        · exact h
        · exact absurd (Or.inr h) hnot

/-- Witness for C6 on the 1×1 design matrix `[[1]]` with unit weight and
no regularization. -/
theorem fit_spec_witness :
    ((∃ c, fit !![(1 : ℝ)] (fun _ => 1) (fun _ => 1) 0 = .ok c) ↔
      ((0 : ℝ) < 0 ∨ (!![(1 : ℝ)]).rank = 1)) ∧
    (fit !![(1 : ℝ)] (fun _ => 1) (fun _ => 1) 0 = .error .singularFitError ↔
      ((0 : ℝ) = 0 ∧ (!![(1 : ℝ)]).rank < 1)) :=
  fit_spec !![(1 : ℝ)] (fun _ => 1) (fun _ => 1) 0
    (fun _ => zero_lt_one) le_rfl

/-- C8: when all regression weights equal the same positive constant (the
limit `kernel_width → ∞`), the weighted fit coincides with ordinary
unweighted least squares on the same data. -/
theorem fit_const_weight_eq_ols {m n : ℕ} (X : Matrix (Fin m) (Fin n) ℝ)
    (y : Fin m → ℝ) (c : ℝ) (hc : 0 < c) :
    fit X (fun _ => c) y 0 = olsFit X y := by
  have hAc : Xᵀ * Matrix.diagonal (fun _ : Fin m => c) * X
      + (0 : ℝ) • (1 : Matrix (Fin n) (Fin n) ℝ) = c • (Xᵀ * X) := by
    have hd : Matrix.diagonal (fun _ : Fin m => c)
        = c • (1 : Matrix (Fin m) (Fin m) ℝ) := by
      ext i j
      by_cases h : i = j <;> simp [Matrix.diagonal_apply, Matrix.one_apply, h]
    rw [hd, zero_smul, add_zero, Matrix.mul_smul, Matrix.smul_mul, Matrix.mul_one]
  have hdet : ((c • (Xᵀ * X)) : Matrix (Fin n) (Fin n) ℝ).det
      = c ^ n * (Xᵀ * X).det := by
    rw [Matrix.det_smul, Fintype.card_fin]
  have hunit : IsUnit ((c • (Xᵀ * X)) : Matrix (Fin n) (Fin n) ℝ).det
      ↔ IsUnit (Xᵀ * X).det := by
    rw [hdet, isUnit_iff_ne_zero, isUnit_iff_ne_zero, mul_ne_zero_iff]
    exact ⟨fun h => h.2, fun h => ⟨pow_ne_zero _ hc.ne', h⟩⟩
  have hyv : (Xᵀ *ᵥ fun i => c * y i) = c • (Xᵀ *ᵥ y) := by
    have hcy : (fun i => c * y i) = c • y := by
      funext i
      simp
    rw [hcy, Matrix.mulVec_smul]
  simp only [fit, olsFit]
  rw [hAc, hyv]
  by_cases hB : IsUnit (Xᵀ * X).det
  · rw [if_pos (hunit.mpr hB), if_pos hB]
    have hcBdet : IsUnit ((c • (Xᵀ * X)) : Matrix (Fin n) (Fin n) ℝ).det :=
      hunit.mpr hB
    have key : (Xᵀ * X) *ᵥ ((c • (Xᵀ * X))⁻¹ *ᵥ (c • (Xᵀ *ᵥ y))) = Xᵀ *ᵥ y := by
      have h1 : (c • (Xᵀ * X)) *ᵥ ((c • (Xᵀ * X))⁻¹ *ᵥ (c • (Xᵀ *ᵥ y)))
          = c • (Xᵀ *ᵥ y) := by
        rw [Matrix.mulVec_mulVec, Matrix.mul_nonsing_inv _ hcBdet,
          Matrix.one_mulVec]
      rw [Matrix.smul_mulVec_assoc] at h1
      exact smul_right_injective (Fin n → ℝ) hc.ne' h1
    congr 1
    have h2 := congrArg (fun u => (Xᵀ * X)⁻¹ *ᵥ u) key
    simp only at h2
    rw [Matrix.mulVec_mulVec, Matrix.nonsing_inv_mul _ hB,
      Matrix.one_mulVec] at h2
    exact h2
  · rw [if_neg (fun h => hB (hunit.mp h)), if_neg hB]

/-- Witness for C8 on the 1×1 design matrix `[[1]]` with constant weight
`2`. -/
theorem fit_const_weight_eq_ols_witness :
    fit !![(1 : ℝ)] (fun _ => 2) (fun _ => 3) 0 = olsFit !![(1 : ℝ)] (fun _ => 3) :=
  fit_const_weight_eq_ols !![(1 : ℝ)] (fun _ => 3) 2 zero_lt_two

/-! ## Explanation Assembler (§4.6) -/

/-- Modelled from the spec: the `sign_filter` argument of `assemble`,
selecting positive-only, negative-only, or both contributions. -/
inductive SignFilter where
  | positive
  | negative
  | both

/-- The assembler's segment ordering: greater coefficient magnitude first,
ties broken by ascending segment id. -/
def segOrder {n : ℕ} (coef : Fin n → ℝ) (i j : Fin n) : Prop :=
  |coef j| < |coef i| ∨ (|coef i| = |coef j| ∧ i ≤ j)

/-- Whether a segment's coefficient passes the sign filter. -/
def signOk {n : ℕ} (coef : Fin n → ℝ) : SignFilter → Fin n → Prop
  | .positive, i => 0 < coef i
  | .negative, i => coef i < 0
  | .both, _ => True

open Classical in
/-- Modelled from the spec: `assemble(surrogate_model, segmentation_map,
top_k, sign_filter)`: keep the segments passing the sign filter, order them
by coefficient magnitude descending with ties broken by segment id
ascending, and emit the first `top_k` of them as the ranked segment
list of the Explanation. -/
noncomputable def assemble {n : ℕ} (coef : Fin n → ℝ) (top_k : ℕ)
    (sf : SignFilter) : List (Fin n) :=
  (List.insertionSort (segOrder coef)
    ((List.finRange n).filter fun i => decide (signOk coef sf i))).take top_k

theorem segOrder_trans {n : ℕ} (coef : Fin n → ℝ) :
    ∀ a b c, segOrder coef a b → segOrder coef b c → segOrder coef a c := by
  intro a b c hab hbc
  rcases hab with h1 | ⟨h1, h1'⟩ <;> rcases hbc with h2 | ⟨h2, h2'⟩
  · exact Or.inl (h2.trans h1)
  · exact Or.inl (h2 ▸ h1)
  · exact Or.inl (h1 ▸ h2)
  · exact Or.inr ⟨h1.trans h2, h1'.trans h2'⟩

theorem segOrder_total {n : ℕ} (coef : Fin n → ℝ) :
    ∀ a b, segOrder coef a b ∨ segOrder coef b a := by
  intro a b
  rcases lt_trichotomy |coef a| |coef b| with h | h | h
  · exact Or.inr (Or.inl h)
  · rcases le_total a b with hab | hab
    · exact Or.inl (Or.inr ⟨h, hab⟩)
    · exact Or.inr (Or.inr ⟨h.symm, hab⟩)
  · exact Or.inl (Or.inl h)

open Classical in
/-- C9: the ranked segment list emitted by `assemble` is ordered by
absolute coefficient value descending, and whenever two selected segments
have equal coefficient magnitude the one with the smaller segment id comes
first. -/
theorem assemble_spec {n : ℕ} (coef : Fin n → ℝ) (top_k : ℕ) (sf : SignFilter) :
    (assemble coef top_k sf).Pairwise fun i j =>
      |coef j| < |coef i| ∨ (|coef i| = |coef j| ∧ i < j) := by
  haveI : IsTotal (Fin n) (segOrder coef) := ⟨segOrder_total coef⟩
  haveI : IsTrans (Fin n) (segOrder coef) := ⟨segOrder_trans coef⟩
  have hsorted : List.Pairwise (segOrder coef)
      (List.insertionSort (segOrder coef)
        ((List.finRange n).filter fun i => decide (signOk coef sf i))) :=
    List.sorted_insertionSort (segOrder coef) _
  have hnodup : (List.insertionSort (segOrder coef)
      ((List.finRange n).filter fun i => decide (signOk coef sf i))).Nodup :=
    (List.perm_insertionSort (segOrder coef) _).nodup_iff.mpr
      ((List.nodup_finRange n).filter _)
  have hcombined := hsorted.and hnodup
  rw [assemble]
  refine ((hcombined.sublist (List.take_sublist top_k _)).imp ?_)
  rintro i j ⟨h1 | ⟨h1, h1'⟩, h2⟩
  · exact Or.inl h1
  · exact Or.inr ⟨h1, lt_of_le_of_ne h1' h2⟩

/-! ## The composed pipeline (§2, §5) -/

/-- Modelled from the spec: the design matrix the Surrogate Fitter sees —
one row per sample, one column of presence indicators (0/1) per segment. -/
def designMatrix (N : ℕ) (samples : List (List Bool)) :
    Matrix (Fin samples.length) (Fin N) ℝ :=
  Matrix.of fun i j => if (samples.getD i []).getD j false then 1 else 0

/-- Modelled from the spec: the downstream (kernel/weighting, fitting, and
assembling) stages run on a given distances array: distances are turned
into regression weights through the kernel, the weighted fit produces the
surrogate coefficients, and the assembler ranks them. -/
noncomputable def explainFromDistances (N : ℕ) (samples : List (List Bool))
    (yvals dists : List ℝ) (kw lam : ℝ) (top_k : ℕ) (sf : SignFilter) :
    Except VisualimeError (List (Fin N)) :=
  Except.map (fun coef => assemble coef top_k sf)
    (fit (designMatrix N samples)
      (fun i => (dists.map fun t => kernel t kw).getD i 0)
      (fun i => yvals.getD i 0) lam)

/-- Modelled from the spec: the full pipeline of §2 with the distances
array supplied by the caller: Sample Generator, Perturbation Engine,
Predictor Adapter (the classifier as an injected black-box function,
`cls` the target class), then the downstream stages on the given
distances. -/
noncomputable def explainWithDistances (N M : ℕ) (p : ℚ) (seed : ℕ)
    (segmentation_map : List (List ℕ)) (image : List (List Pixel))
    (background : ℕ → ℕ → Pixel) (classifier : List (List Pixel) → List ℝ)
    (cls : ℕ) (dists : List ℝ) (kw lam : ℝ) (top_k : ℕ) (sf : SignFilter) :
    Except VisualimeError (List (Fin N)) := do
  let samples ← generate_samples N M p seed
  let perturbed := samples.map fun s => apply s segmentation_map image background
  let preds := perturbed.map classifier
  let yvals := preds.map fun pv => pv.getD cls 0
  explainFromDistances N samples yvals dists kw lam top_k sf

/-- Modelled from the spec: the full pipeline of §2.  The distances array
is either supplied externally by the caller or computed internally by the
Distance & Kernel Module from the Samples matrix. -/
noncomputable def explain (N M : ℕ) (p : ℚ) (seed : ℕ)
    (segmentation_map : List (List ℕ)) (image : List (List Pixel))
    (background : ℕ → ℕ → Pixel) (classifier : List (List Pixel) → List ℝ)
    (cls : ℕ) (metric : Metric) (externalDistances : Option (List ℝ))
    (kw lam : ℝ) (top_k : ℕ) (sf : SignFilter) :
    Except VisualimeError (List (Fin N)) := do
  let samples ← generate_samples N M p seed
  let perturbed := samples.map fun s => apply s segmentation_map image background
  let preds := perturbed.map classifier
  let yvals := preds.map fun pv => pv.getD cls 0
  let dists := externalDistances.getD (compute_distances samples metric)
  explainFromDistances N samples yvals dists kw lam top_k sf

/-- C2: with an explicit seed, two runs of `generate_samples` with the same
parameters produce bit-identical Samples matrices, and two runs of the
full pipeline with the same seed, same classifier and same parameters
produce identical Explanations. -/
theorem pipeline_deterministic (N M : ℕ) (p : ℚ) (seed₁ seed₂ : ℕ)
    (segmentation_map : List (List ℕ)) (image : List (List Pixel))
    (background : ℕ → ℕ → Pixel) (classifier : List (List Pixel) → List ℝ)
    (cls : ℕ) (metric : Metric) (externalDistances : Option (List ℝ))
    (kw lam : ℝ) (top_k : ℕ) (sf : SignFilter)
    (hseed : seed₁ = seed₂) :
    generate_samples N M p seed₁ = generate_samples N M p seed₂ ∧
    explain N M p seed₁ segmentation_map image background classifier cls
        metric externalDistances kw lam top_k sf
      = explain N M p seed₂ segmentation_map image background classifier cls
        metric externalDistances kw lam top_k sf := by
  subst hseed
  exact ⟨rfl, rfl⟩

/-- Witness for C2: two runs with seed 42 on a 1-segment, 1-sample
configuration agree. -/
theorem pipeline_deterministic_witness :
    generate_samples 1 1 (1/2) 42 = generate_samples 1 1 (1/2) 42 ∧
    explain 1 1 (1/2) 42 [[0]] [[[(0 : Fin 256)]]] (fun _ _ => [])
        (fun _ => [0]) 0 Metric.hamming none 1 0 1 SignFilter.both
      = explain 1 1 (1/2) 42 [[0]] [[[(0 : Fin 256)]]] (fun _ _ => [])
        (fun _ => [0]) 0 Metric.hamming none 1 0 1 SignFilter.both :=
  pipeline_deterministic 1 1 (1/2) 42 42 [[0]] [[[(0 : Fin 256)]]]
    (fun _ _ => []) (fun _ => [0]) 0 Metric.hamming none 1 0 1
    SignFilter.both rfl

theorem except_bind_error {α β : Type} (e : VisualimeError)
    (f : α → Except VisualimeError β) :
    (Except.error e >>= f) = (Except.error e : Except VisualimeError β) := rfl

theorem except_bind_ok {α β : Type} (a : α)
    (f : α → Except VisualimeError β) :
    (Except.ok a >>= f) = f a := rfl

/-- C10: an externally supplied distances array of the right length is
accepted and used unchanged by the downstream kernel/weighting and fitting
stages, in place of the internally computed distances; omitting it runs
the same downstream stages on the distances the Distance & Kernel Module
computes from the Samples matrix. -/
theorem external_distances_spec (N M : ℕ) (p : ℚ) (seed : ℕ)
    (segmentation_map : List (List ℕ)) (image : List (List Pixel))
    (background : ℕ → ℕ → Pixel) (classifier : List (List Pixel) → List ℝ)
    (cls : ℕ) (metric : Metric) (d : List ℝ) (kw lam : ℝ) (top_k : ℕ)
    (sf : SignFilter) (hlen : d.length = M) :
    explain N M p seed segmentation_map image background classifier cls
        metric (some d) kw lam top_k sf
      = explainWithDistances N M p seed segmentation_map image background
        classifier cls d kw lam top_k sf ∧
    explain N M p seed segmentation_map image background classifier cls
        metric none kw lam top_k sf
      = explainWithDistances N M p seed segmentation_map image background
        classifier cls (compute_distances (samplesMatrix N M p seed) metric)
        kw lam top_k sf := by
  constructor
  · rw [explain, explainWithDistances]
    rfl
  · rw [explain, explainWithDistances]
    by_cases h : N < 1 ∨ M < 1 ∨ p < 0 ∨ 1 < p
    · rw [generate_samples, if_pos h, except_bind_error, except_bind_error]
    · rw [generate_samples, if_neg h, except_bind_ok, except_bind_ok]
      rfl

/-- Witness for C10 with a one-entry external distances array. -/
theorem external_distances_spec_witness :
    (explain 1 1 (1/2) 0 [[0]] [[[(0 : Fin 256)]]] (fun _ _ => [])
        (fun _ => [0]) 0 Metric.hamming (some [0]) 1 0 1 SignFilter.both
      = explainWithDistances 1 1 (1/2) 0 [[0]] [[[(0 : Fin 256)]]]
        (fun _ _ => []) (fun _ => [0]) 0 [0] 1 0 1 SignFilter.both) ∧
    (explain 1 1 (1/2) 0 [[0]] [[[(0 : Fin 256)]]] (fun _ _ => [])
        (fun _ => [0]) 0 Metric.hamming none 1 0 1 SignFilter.both
      = explainWithDistances 1 1 (1/2) 0 [[0]] [[[(0 : Fin 256)]]]
        (fun _ _ => []) (fun _ => [0]) 0
        (compute_distances (samplesMatrix 1 1 (1/2) 0) Metric.hamming)
        1 0 1 SignFilter.both) :=
  external_distances_spec 1 1 (1/2) 0 [[0]] [[[(0 : Fin 256)]]]
    (fun _ _ => []) (fun _ => [0]) 0 Metric.hamming [0] 1 0 1
    SignFilter.both rfl

end Visualime
